import Mathlib

/-!
Verification development for the rust-btc-solominer repository
(`src/main.rs`).  The Rust functions relevant to the specification are
shallowly embedded below: hex strings become `List Char`, byte buffers
become `List Nat` (each element a byte value), fallible functions return
`Except String _` mirroring `anyhow::Result`, and the external SHA-256
primitive is passed as an explicit function parameter wherever the source
calls `Sha256::digest`.
-/

set_option autoImplicit false

namespace SoloMiner

/-- Value of one hex digit, as accepted by the `hex` crate used in the
source (`0-9`, `a-f`, `A-F`). -/
def hexDigitVal (c : Char) : Option Nat :=
  if '0' ≤ c ∧ c ≤ '9' then some (c.toNat - '0'.toNat)
  else if 'a' ≤ c ∧ c ≤ 'f' then some (c.toNat - 'a'.toNat + 10)
  else if 'A' ≤ c ∧ c ≤ 'F' then some (c.toNat - 'A'.toNat + 10)
  else none

/-- Embedding of `hex::decode`: decodes a hex character list two
characters per byte; fails on a non-hex character or an odd length. -/
def hexDecodeList : List Char → Option (List Nat)
  | [] => some []
  | [_] => none
  | c1 :: c2 :: rest =>
    match hexDigitVal c1, hexDigitVal c2, hexDecodeList rest with
    | some h, some l, some bs => some ((16 * h + l) :: bs)
    | _, _, _ => none

/-- Embedding of `hex::encode` on one byte: two lowercase hex digits. -/
def hexEncodeByte (b : Nat) : List Char :=
  [Nat.digitChar (b / 16 % 16), Nat.digitChar (b % 16)]

/-- Embedding of `hex::encode`: lowercase hex, two characters per byte. -/
def hexEncodeList (bs : List Nat) : List Char :=
  (bs.map hexEncodeByte).flatten

/-- Rust `format!("\x7b:0>w\x7d", s)`: left-pad with `'0'` to width `w`
(no truncation when the input is already longer). -/
def padLeftZeros (w : Nat) (s : List Char) : List Char :=
  List.replicate (w - s.length) '0' ++ s

/-- Rust `format!("\x7b:0<w\x7d", s)`: right-pad with `'0'` to width `w`
(no truncation when the input is already longer). -/
def padRightZeros (w : Nat) (s : List Char) : List Char :=
  s ++ List.replicate (w - s.length) '0'

/-- Embedding of `calculate_target` (src/main.rs lines 266-320): decode
`nbits` as 4 bytes, reject exponents below 3 or above 32, then place the
3 mantissa bytes into a 32-byte zero buffer at position
`32 - (exponent-3) - 3`, with the same saturating subtractions and bounds
guards as the source. -/
def calculate_target (nbits : List Char) : Except String (List Nat) :=
  if nbits.length ≠ 8 then .error "nbits must be 8 hex characters (4 bytes)"
  else
    match hexDecodeList nbits with
    | none => .error "Failed to decode nbits"
    | some nbits_bytes =>
      if nbits_bytes.length ≠ 4 then .error "nbits must be 4 bytes"
      else
        let exponent := nbits_bytes.getD 0 0
        if exponent < 3 then .error "Invalid nbits: exponent too small"
        else if exponent > 32 then .error "Invalid nbits: exponent too large"
        else
          let target : List Nat := List.replicate 32 0
          let mantissa_byte1 := nbits_bytes.getD 1 0
          let mantissa_byte2 := nbits_bytes.getD 2 0
          let mantissa_byte3 := nbits_bytes.getD 3 0
          let shift_bytes := exponent - 3
          if shift_bytes ≥ 32 then .ok target
          else
            let start_pos := 32 - shift_bytes - 3
            if start_pos < 32 then
              let t1 := target.set start_pos mantissa_byte1
              let t2 := if start_pos + 1 < 32 then t1.set (start_pos + 1) mantissa_byte2 else t1
              let t3 := if start_pos + 2 < 32 then t2.set (start_pos + 2) mantissa_byte3 else t2
              .ok t3
            else .ok target

/-- Byte-by-byte big-endian comparison loop of `hash_meets_target`
(src/main.rs lines 329-338): first differing byte decides; running off
the end (all bytes equal) accepts. -/
def cmpLoop : List Nat → List Nat → Bool
  | h :: hs, t :: ts =>
    if h < t then true
    else if h > t then false
    else cmpLoop hs ts
  | _, _ => true

/-- Embedding of `hash_meets_target` (src/main.rs lines 323-339): both
inputs must be exactly 32 bytes, otherwise `false`; then the big-endian
byte comparison loop, accepting equality. -/
def hash_meets_target (hash target : List Nat) : Bool :=
  if hash.length ≠ 32 ∨ target.length ≠ 32 then false
  else cmpLoop hash target

/-- Numeric value of a byte list read most-significant byte first; used
only in specification statements, never by the embedded code. -/
def ofBytesBE : List Nat → Nat
  | [] => 0
  | b :: bs => b * 256 ^ bs.length + ofBytesBE bs

/-- Embedding of `create_block_header` (src/main.rs lines 233-260):
left-pad `version`/`nbits`/`ntime`/`nonce` to 8 hex characters, right-pad
`prevhash`/`merkle_root` to 64, concatenate in the fixed order, then
hex-decode the whole string. -/
def create_block_header (version prevhash merkle_root nbits ntime nonce : List Char) :
    Except String (List Nat) :=
  let version_padded := padLeftZeros 8 version
  let prevhash_padded := padRightZeros 64 prevhash
  let merkle_root_padded := padRightZeros 64 merkle_root
  let nbits_padded := padLeftZeros 8 nbits
  let ntime_padded := padLeftZeros 8 ntime
  let nonce_padded := padLeftZeros 8 nonce
  let header_hex := version_padded ++ prevhash_padded ++ merkle_root_padded ++
    nbits_padded ++ ntime_padded ++ nonce_padded
  match hexDecodeList header_hex with
  | some bytes => .ok bytes
  | none => .error "Failed to decode block header hex"

/-- Embedding of `double_sha256` (src/main.rs lines 214-218); the SHA-256
primitive lives in the external `sha2` crate, so it is passed in as a
function parameter. -/
def double_sha256 (sha256 : List Nat → List Nat) (data : List Nat) : List Nat :=
  sha256 (sha256 data)

/-- Embedding of the merkle-root fold of `bitcoin_miner` (src/main.rs
lines 456-463): starting from the coinbase hash, hex-decode each branch
entry in order and replace the accumulator by the double hash of
accumulator-then-branch. -/
def merkleFold (sha256 : List Nat → List Nat) :
    List Nat → List (List Char) → Except String (List Nat)
  | merkle_root, [] => .ok merkle_root
  | merkle_root, branch :: rest =>
    match hexDecodeList branch with
    | none => .error "Failed to decode merkle branch"
    | some branch_bytes =>
      merkleFold sha256 (double_sha256 sha256 (merkle_root ++ branch_bytes)) rest

/-- Embedding of `reverse_hex_bytes` (src/main.rs lines 221-229): walk
the string two characters at a time and emit the pairs in reverse order;
a trailing unpaired character is dropped. -/
def reverse_hex_bytes : List Char → List Char
  | c1 :: c2 :: rest => reverse_hex_bytes rest ++ [c1, c2]
  | _ => []

/-- Minimal model of a `serde_json::Value` as used by the miner. -/
inductive JVal where
  | null : JVal
  | bool : Bool → JVal
  | num : Int → JVal
  | str : List Char → JVal
  | arr : List JVal → JVal

/-- Rust `Value` indexing `v[i]`: element of an array, `Null` when out of
bounds or when `v` is not an array. -/
def JVal.get : JVal → Nat → JVal
  | .arr xs, i => xs.getD i .null
  | _, _ => .null

/-- Model of `Value::as_str`. -/
def JVal.as_str : JVal → Option (List Char)
  | .str s => some s
  | _ => none

/-- Model of `Value::as_array`. -/
def JVal.as_array : JVal → Option (List JVal)
  | .arr xs => some xs
  | _ => none

/-- Model of `Value::as_bool`. -/
def JVal.as_bool : JVal → Option Bool
  | .bool b => some b
  | _ => none

/-- Model of `Value::as_u64` (a non-negative integer). -/
def JVal.as_u64 : JVal → Option Nat
  | .num n => if 0 ≤ n then some n.toNat else none
  | _ => none

/-- Decoded `MiningJob` record (src/main.rs lines 44-55). -/
structure MiningJob where
  job_id : List Char
  prevhash : List Char
  coinb1 : List Char
  coinb2 : List Char
  merkle_branch : List (List Char)
  version : List Char
  nbits : List Char
  ntime : List Char
  clean_jobs : Bool
  deriving DecidableEq, Repr

/-- Embedding of the `MiningJob` decoding in `bitcoin_miner`
(src/main.rs lines 419-437): require at least 9 positional params; the
seven string positions are mandatory, the merkle branch falls back to an
empty list, each branch entry falls back to the empty string, and
`clean_jobs` falls back to `false`. -/
def decodeMiningJob (params : JVal) : Except String MiningJob :=
  if ((params.as_array.map List.length).getD 0) < 9 then
    .error "Invalid mining.notify message: insufficient parameters"
  else
    match (params.get 0).as_str with
    | none => .error "Missing job_id"
    | some job_id =>
      match (params.get 1).as_str with
      | none => .error "Missing prevhash"
      | some prevhash =>
        match (params.get 2).as_str with
        | none => .error "Missing coinb1"
        | some coinb1 =>
          match (params.get 3).as_str with
          | none => .error "Missing coinb2"
          | some coinb2 =>
            let merkle_branch :=
              ((params.get 4).as_array.getD []).map (fun v => v.as_str.getD [])
            match (params.get 5).as_str with
            | none => .error "Missing version"
            | some version =>
              match (params.get 6).as_str with
              | none => .error "Missing nbits"
              | some nbits =>
                match (params.get 7).as_str with
                | none => .error "Missing ntime"
                | some ntime =>
                  .ok { job_id := job_id, prevhash := prevhash, coinb1 := coinb1,
                        coinb2 := coinb2, merkle_branch := merkle_branch,
                        version := version, nbits := nbits, ntime := ntime,
                        clean_jobs := (params.get 8).as_bool.getD false }

/-- Extranonce2 size hint read from element 2 of the subscribe result
(src/main.rs line 381); the source binds it to `_extranonce2_size` and
never uses it again. -/
def subscribeExtranonce2Size (result : JVal) : Nat :=
  ((result.get 2).as_u64).getD 0

/-- The constant `EXTRANONCE2_SIZE_BYTES` (src/main.rs line 30). -/
def extranonce2SizeBytes : Nat := 4

/-- Embedding of the extranonce2 generation (src/main.rs lines 443-444):
hex-encode the 4 random bytes and left-pad the result to 8 hex
characters. -/
def mkExtranonce2 (extranonce2_bytes : List Nat) : List Char :=
  padLeftZeros 8 (hexEncodeList extranonce2_bytes)

/-- One tick of `new_block_listener` (src/main.rs lines 606-619): write
the fetched network height only when it strictly exceeds the stored
current height. -/
def watcherStep (current_height network_height : Nat) : Nat :=
  if network_height > current_height then network_height else current_height

/-- The watcher loop over a finite sequence of successful height
observations, starting from a stored value. -/
def watcherRun (init : Nat) (heights : List Nat) : Nat :=
  heights.foldl watcherStep init

/-- Rust `format!("\x7b:08x\x7d", n)` on a `u32` value: always exactly
the 8 lowercase hex digits of the four big-endian bytes of `n`. -/
def format08x (n : Nat) : List Char :=
  hexEncodeList [n / 2 ^ 24 % 256, n / 2 ^ 16 % 256, n / 2 ^ 8 % 256, n % 256]

/-- Advancing the `u32` nonce counter: `wrapping_add(1)`
(src/main.rs line 497). -/
def stepNonce (nonce_counter : Nat) : Nat := (nonce_counter + 1) % 2 ^ 32

/-- A solution as submitted by the miner: the winning hash and the
`mining.submit` params taken from the job (src/main.rs lines 513-568). -/
structure Solution where
  hash : List Nat
  nonce : List Char
  job_id : List Char
  extranonce2 : List Char
  ntime : List Char
  deriving DecidableEq, Repr

/-- The per-job data the nonce search reads: the SHA-256 primitive, the
five fixed header fields, the decoded target, and the submit params. -/
structure JobParams where
  sha256 : List Nat → List Nat
  version : List Char
  prevhash : List Char
  merkle_root_hex : List Char
  nbits : List Char
  ntime : List Char
  job_id : List Char
  extranonce2 : List Char
  target : List Nat

/-- Building and double-hashing the header for one nonce
(src/main.rs lines 500-509). -/
def tryHeader (jp : JobParams) (nonce_hex : List Char) : Except String (List Nat) :=
  (create_block_header jp.version jp.prevhash jp.merkle_root_hex jp.nbits jp.ntime
    nonce_hex).map (double_sha256 jp.sha256)

/-- The inner `for _ in 0..HASHES_PER_BATCH` loop (src/main.rs lines
495-580): increment the nonce counter first, build and hash the header,
and on the first hash meeting the target construct the solution and stop;
otherwise continue until the batch is exhausted.  Returns the solution
(if any) and the final nonce counter. -/
def mineBatch (jp : JobParams) : Nat → Nat → Except String (Option Solution × Nat)
  | 0, nonce_counter => .ok (none, nonce_counter)
  | fuel + 1, nonce_counter =>
    let nonce' := stepNonce nonce_counter
    let nonce_hex := format08x nonce'
    match tryHeader jp nonce_hex with
    | .error e => .error e
    | .ok hash_bytes =>
      if hash_meets_target hash_bytes jp.target then
        .ok (some { hash := hash_bytes, nonce := nonce_hex, job_id := jp.job_id,
                    extranonce2 := jp.extranonce2, ntime := jp.ntime }, nonce')
      else mineBatch jp fuel nonce'

/-- The constant `HASHES_PER_BATCH` (src/main.rs line 25). -/
def hashesPerBatch : Nat := 1000

/-- The outer mining loop of `bitcoin_miner` (src/main.rs lines 480-593):
before each batch read the shared current height (modelled as the finite
list of values observed at successive batch boundaries) and abandon the
job without a solution when it exceeds the height the job started on;
otherwise run one batch of `hashesPerBatch` nonces, returning the first
solution found. -/
def mineJob (jp : JobParams) (work_on : Nat) :
    List Nat → Nat → Except String (Option Solution)
  | [], _ => .ok none
  | h :: hs, nonce_counter =>
    if h > work_on then .ok none
    else
      match mineBatch jp hashesPerBatch nonce_counter with
      | .error e => .error e
      | .ok (some sol, _) => .ok (some sol)
      | .ok (none, nonce') => mineJob jp work_on hs nonce'

/-- A concrete job whose SHA-256 stand-in constantly returns the all-zero
digest, so every nonce meets the all-zero target; used to exercise the
search loop on closed inputs. -/
def jpExample : JobParams where
  sha256 := fun _ => List.replicate 32 0
  version := []
  prevhash := []
  merkle_root_hex := []
  nbits := []
  ntime := []
  job_id := ['1']
  extranonce2 := ['a', 'b']
  target := List.replicate 32 0

/-- The solution the search produces on `jpExample`: it appears at the
first attempted nonce, whose counter value is 1. -/
def solExample : Solution where
  hash := List.replicate 32 0
  nonce := format08x 1
  job_id := ['1']
  extranonce2 := ['a', 'b']
  ntime := []

/- ------------------------------------------------------------------ -/
/- Helper lemmas shared by several claims.                             -/
/- ------------------------------------------------------------------ -/

@[simp] theorem JVal.get_arr (xs : List JVal) (i : Nat) :
    JVal.get (.arr xs) i = xs.getD i .null := rfl

@[simp] theorem JVal.as_str_str (s : List Char) : (JVal.str s).as_str = some s := rfl

theorem ofBytesBE_lt (l : List Nat) (hb : ∀ b ∈ l, b < 256) :
    ofBytesBE l < 256 ^ l.length := by
  induction l with
  | nil => simp [ofBytesBE]
  | cons b bs ih =>
    have hb' : b < 256 := hb b (List.mem_cons_self b bs)
    have hbs : ofBytesBE bs < 256 ^ bs.length :=
      ih (fun x hx => hb x (List.mem_cons_of_mem b hx))
    calc b * 256 ^ bs.length + ofBytesBE bs
        < b * 256 ^ bs.length + 256 ^ bs.length := by omega
      _ = (b + 1) * 256 ^ bs.length := by ring
      _ ≤ 256 * 256 ^ bs.length := Nat.mul_le_mul_right _ (by omega)
      _ = 256 ^ (bs.length + 1) := by ring
      _ = 256 ^ (b :: bs).length := by simp

theorem cmpLoop_eq_decide (h : List Nat) : ∀ t : List Nat, h.length = t.length →
    (∀ b ∈ h, b < 256) → (∀ b ∈ t, b < 256) →
    cmpLoop h t = decide (ofBytesBE h ≤ ofBytesBE t) := by
  induction h with
  | nil =>
    intro t hlen _ _
    cases t with
    | nil => simp [cmpLoop, ofBytesBE]
    | cons x xs => simp at hlen
  | cons a as ih =>
    intro t hlen hhb htb
    cases t with
    | nil => simp at hlen
    | cons b bs =>
      have hlen' : as.length = bs.length := by simpa using hlen
      have ha : a < 256 := hhb a (List.mem_cons_self a as)
      have hX : ofBytesBE as < 256 ^ as.length :=
        ofBytesBE_lt as (fun x hx => hhb x (List.mem_cons_of_mem a hx))
      have hY : ofBytesBE bs < 256 ^ bs.length :=
        ofBytesBE_lt bs (fun x hx => htb x (List.mem_cons_of_mem b hx))
      have hX' : ofBytesBE (a :: as) = a * 256 ^ as.length + ofBytesBE as := rfl
      have hY' : ofBytesBE (b :: bs) = b * 256 ^ bs.length + ofBytesBE bs := rfl
      rcases Nat.lt_trichotomy a b with hab | hab | hab
      · have h1 : a * 256 ^ as.length + ofBytesBE as < (a + 1) * 256 ^ as.length := by
          rw [Nat.succ_mul]; exact Nat.add_lt_add_left hX _
        have h2 : (a + 1) * 256 ^ as.length ≤ b * 256 ^ bs.length := by
          rw [← hlen']; exact Nat.mul_le_mul_right _ (by omega)
        have hlt : ofBytesBE (a :: as) < ofBytesBE (b :: bs) := by
          rw [hX', hY']
          exact Nat.lt_of_lt_of_le h1 (Nat.le_trans h2 (Nat.le_add_right _ _))
        simp only [cmpLoop, if_pos hab]
        exact (decide_eq_true (Nat.le_of_lt hlt)).symm
      · subst hab
        have hiff : (ofBytesBE (a :: as) ≤ ofBytesBE (a :: bs)) ↔
            (ofBytesBE as ≤ ofBytesBE bs) := by
          rw [hX', hY', hlen']
          exact Nat.add_le_add_iff_left
        have : cmpLoop (a :: as) (a :: bs) = cmpLoop as bs := by
          simp [cmpLoop]
        rw [this, ih bs hlen' (fun x hx => hhb x (List.mem_cons_of_mem a hx))
          (fun x hx => htb x (List.mem_cons_of_mem a hx))]
        by_cases hle : ofBytesBE as ≤ ofBytesBE bs
        · rw [decide_eq_true hle, decide_eq_true (hiff.mpr hle)]
        · rw [decide_eq_false hle, decide_eq_false (fun hc => hle (hiff.mp hc))]
      · have h1 : b * 256 ^ bs.length + ofBytesBE bs < (b + 1) * 256 ^ bs.length := by
          rw [Nat.succ_mul]; exact Nat.add_lt_add_left hY _
        have h2 : (b + 1) * 256 ^ bs.length ≤ a * 256 ^ as.length := by
          rw [hlen']; exact Nat.mul_le_mul_right _ (by omega)
        have hlt : ofBytesBE (b :: bs) < ofBytesBE (a :: as) := by
          rw [hX', hY']
          exact Nat.lt_of_lt_of_le h1 (Nat.le_trans h2 (Nat.le_add_right _ _))
        have hgt : ¬ a < b := by omega
        simp only [cmpLoop, if_neg hgt, if_pos hab]
        exact (decide_eq_false (Nat.not_le_of_lt hlt)).symm


/- ------------------------------------------------------------------ -/
/- Claim C2                                                            -/
/- ------------------------------------------------------------------ -/

/-- Claim C2: for every pair of 32-byte values, `hash_meets_target`
returns `true` exactly when the hash is at most the target under
most-significant-byte-first ordering (equality accepted); in particular
an all-zero hash meets an all-zero target, and a hash starting with the
byte `0x01` never meets the all-zero target. -/
theorem hash_meets_target_iff_le (hash target : List Nat)
    (hh : hash.length = 32) (ht : target.length = 32)
    (hhb : ∀ b ∈ hash, b < 256) (htb : ∀ b ∈ target, b < 256) :
    (hash_meets_target hash target = true ↔ ofBytesBE hash ≤ ofBytesBE target) ∧
    hash_meets_target (List.replicate 32 0) (List.replicate 32 0) = true ∧
    hash_meets_target (1 :: List.replicate 31 0) (List.replicate 32 0) = false := by
  refine ⟨?_, by decide, by decide⟩
  have hcond : ¬ (hash.length ≠ 32 ∨ target.length ≠ 32) := by omega
  rw [hash_meets_target, if_neg hcond,
    cmpLoop_eq_decide hash target (by omega) hhb htb]
  exact decide_eq_true_iff

/-- Witness for C2: the theorem applied to the all-zero hash and the
target whose last byte is 1. -/
theorem hash_meets_target_iff_le_witness :
    (hash_meets_target (List.replicate 32 0) (List.replicate 31 0 ++ [1]) = true ↔
      ofBytesBE (List.replicate 32 0) ≤ ofBytesBE (List.replicate 31 0 ++ [1])) ∧
    hash_meets_target (List.replicate 32 0) (List.replicate 32 0) = true ∧
    hash_meets_target (1 :: List.replicate 31 0) (List.replicate 32 0) = false :=
  hash_meets_target_iff_le (List.replicate 32 0) (List.replicate 31 0 ++ [1])
    (by decide) (by decide) (by decide) (by decide)

/- ------------------------------------------------------------------ -/
/- Claim C10                                                           -/
/- ------------------------------------------------------------------ -/

/-- Claim C10: the hash-versus-target comparison is total (the embedded
function is total by construction) and returns `false` whenever either
input is not exactly 32 bytes long. -/
theorem hash_meets_target_wrong_length (hash target : List Nat)
    (h : hash.length ≠ 32 ∨ target.length ≠ 32) :
    hash_meets_target hash target = false := by
  rw [hash_meets_target, if_pos h]

/-- Witness for C10: the theorem applied to an empty hash. -/
theorem hash_meets_target_wrong_length_witness :
    hash_meets_target [] (List.replicate 32 0) = false :=
  hash_meets_target_wrong_length [] (List.replicate 32 0) (Or.inl (by decide))

/- ------------------------------------------------------------------ -/
/- Claim C6                                                            -/
/- ------------------------------------------------------------------ -/

/-- Claim C6: the stored current height never decreases: one watcher
step never lowers the stored value, and after any finite sequence of
observations the stored value is the maximum of the initial value and
all observed heights, in whatever order they arrive. -/
theorem watcherRun_max (init : Nat) (heights : List Nat) :
    watcherRun init heights = heights.foldl Nat.max init ∧
    ∀ current h, current ≤ watcherStep current h := by
  have hstep : ∀ c h, watcherStep c h = Nat.max c h := by
    intro c h
    rw [watcherStep]
    by_cases hgt : h > c
    · rw [if_pos hgt]
      exact (Nat.max_eq_right (Nat.le_of_lt hgt)).symm
    · rw [if_neg hgt]
      exact (Nat.max_eq_left (by omega)).symm
  constructor
  · induction heights generalizing init with
    | nil => rfl
    | cons h hs ih =>
      rw [watcherRun, List.foldl_cons, ← watcherRun, ih, hstep, List.foldl_cons]
  · intro c h
    rw [hstep]
    exact Nat.le_max_left c h

/- ------------------------------------------------------------------ -/
/- Claim C1                                                            -/
/- ------------------------------------------------------------------ -/

theorem getD_triple_set (p b1 b2 b3 : Nat) (hp : p + 2 < 32) (i : Nat) (hi : i < 32) :
    ((((List.replicate 32 (0 : Nat)).set p b1).set (p + 1) b2).set (p + 2) b3).getD i 0 =
      if i = p then b1 else if i = p + 1 then b2 else if i = p + 2 then b3 else 0 := by
  have hlen2 : (((List.replicate 32 (0 : Nat)).set p b1).set (p + 1) b2).length = 32 := by
    simp
  have hlen1 : ((List.replicate 32 (0 : Nat)).set p b1).length = 32 := by simp
  rw [List.getD_eq_getElem?_getD]
  by_cases h3 : i = p + 2
  · subst h3
    rw [List.getElem?_set_self (by simp only [List.length_set, List.length_replicate]; omega), if_neg (by omega), if_neg (by omega),
      if_pos rfl]
    rfl
  · rw [List.getElem?_set_ne (fun hc => h3 hc.symm)]
    by_cases h2 : i = p + 1
    · subst h2
      rw [List.getElem?_set_self (by simp only [List.length_set, List.length_replicate]; omega), if_neg (by omega), if_pos rfl]
      rfl
    · rw [List.getElem?_set_ne (fun hc => h2 hc.symm)]
      by_cases h1 : i = p
      · subst h1
        rw [List.getElem?_set_self (by simp only [List.length_set, List.length_replicate]; omega), if_pos rfl]
        rfl
      · rw [List.getElem?_set_ne (fun hc => h1 hc.symm),
          List.getElem?_replicate, if_pos hi, if_neg h1, if_neg h2, if_neg h3]
        rfl

/-- Claim C1: for an `nbits` string of 8 hex characters decoding to bytes
`[b0, b1, b2, b3]`, `calculate_target` fails exactly when the exponent
`b0` is below 3 or above 32; otherwise it returns a 32-byte buffer that
is all zero except the three mantissa bytes placed at byte offset
`32 - (b0 - 3) - 3`; in particular `nbits = 1d00ffff` yields bytes 3..6
equal to `[0x00, 0xff, 0xff]` and every other byte zero. -/
theorem calculate_target_characterization (nbits : List Char) (b0 b1 b2 b3 : Nat)
    (hlen : nbits.length = 8)
    (hdec : hexDecodeList nbits = some [b0, b1, b2, b3]) :
    ((∃ e, calculate_target nbits = .error e) ↔ (b0 < 3 ∨ 32 < b0)) ∧
    (3 ≤ b0 → b0 ≤ 32 →
      ∃ t, calculate_target nbits = .ok t ∧ t.length = 32 ∧
        ∀ i, i < 32 → t.getD i 0 =
          if i = 32 - (b0 - 3) - 3 then b1
          else if i = 32 - (b0 - 3) - 3 + 1 then b2
          else if i = 32 - (b0 - 3) - 3 + 2 then b3 else 0) ∧
    (∃ t, calculate_target ['1', 'd', '0', '0', 'f', 'f', 'f', 'f'] = .ok t ∧
      t.length = 32 ∧ ∀ i, i < 32 →
        t.getD i 0 = if i = 4 ∨ i = 5 then 255 else 0) := by
  have hstep : calculate_target nbits =
      (if b0 < 3 then .error "Invalid nbits: exponent too small"
       else if b0 > 32 then .error "Invalid nbits: exponent too large"
       else .ok ((((List.replicate 32 0).set (32 - (b0 - 3) - 3) b1).set
          (32 - (b0 - 3) - 3 + 1) b2).set (32 - (b0 - 3) - 3 + 2) b3)) := by
    rw [calculate_target, if_neg (by omega), hdec]
    by_cases hsmall : b0 < 3
    · simp [List.getD, hsmall]
    · by_cases hlarge : b0 > 32
      · simp [List.getD, hsmall, hlarge]
      · have hsh : ¬ (b0 - 3 ≥ 32) := by omega
        have hsp : 32 - (b0 - 3) - 3 < 32 := by omega
        have hsp1 : 32 - (b0 - 3) - 3 + 1 < 32 := by omega
        have hsp2 : 32 - (b0 - 3) - 3 + 2 < 32 := by omega
        simp [List.getD, hsmall, hlarge, hsh, hsp, hsp1, hsp2]
  refine ⟨?_, ?_, ?_⟩
  · constructor
    · rintro ⟨e, he⟩
      by_contra hc
      rw [hstep, if_neg (by omega), if_neg (by omega)] at he
      exact Except.noConfusion he
    · intro hc
      rcases hc with hc | hc
      · exact ⟨_, by rw [hstep, if_pos hc]⟩
      · exact ⟨_, by rw [hstep, if_neg (by omega), if_pos (by omega)]⟩
  · intro h3 h32
    refine ⟨_, by rw [hstep, if_neg (by omega), if_neg (by omega)], by simp, ?_⟩
    intro i hi
    exact getD_triple_set (32 - (b0 - 3) - 3) b1 b2 b3 (by omega) i hi
  · exact ⟨_, rfl, by decide, by decide⟩

/-- Witness for C1: the theorem applied to `nbits = "1d00ffff"`, whose
exponent byte is `0x1d = 29`, with both hypotheses discharged by
computation; the mantissa lands at offset `32 - 26 - 3 = 3`. -/
theorem calculate_target_characterization_witness :
    ∃ t, calculate_target ['1', 'd', '0', '0', 'f', 'f', 'f', 'f'] = .ok t ∧
      t.length = 32 ∧ ∀ i, i < 32 → t.getD i 0 =
        if i = 3 then 0 else if i = 3 + 1 then 255 else if i = 3 + 2 then 255 else 0 :=
  ((calculate_target_characterization ['1', 'd', '0', '0', 'f', 'f', 'f', 'f']
    29 0 255 255 (by decide) (by decide)).2.1 (by decide) (by decide))


/- ------------------------------------------------------------------ -/
/- Claim C4                                                            -/
/- ------------------------------------------------------------------ -/

theorem hexEncodeList_cons (b : Nat) (bs : List Nat) :
    hexEncodeList (b :: bs) = hexEncodeByte b ++ hexEncodeList bs := by
  simp [hexEncodeList]

theorem hexEncodeList_append (xs ys : List Nat) :
    hexEncodeList (xs ++ ys) = hexEncodeList xs ++ hexEncodeList ys := by
  simp [hexEncodeList]

theorem reverse_hex_bytes_encode (bs : List Nat) :
    reverse_hex_bytes (hexEncodeList bs) = hexEncodeList bs.reverse := by
  induction bs with
  | nil => rfl
  | cons b bs ih =>
    rw [hexEncodeList_cons, hexEncodeByte]
    show reverse_hex_bytes (_ :: _ :: hexEncodeList bs) = _
    rw [reverse_hex_bytes, ih, List.reverse_cons, hexEncodeList_append]
    rfl

/-- Claim C4: the merkle accumulator starts at the coinbase hash and each
branch entry folds in as the double hash of accumulator-then-entry; the
empty branch list returns the coinbase hash unchanged; and
`reverse_hex_bytes` reverses whole 2-hex-character byte groups, i.e. on
the hex encoding of a byte list it yields the hex encoding of the
reversed byte list, not a character-level reversal. -/
theorem merkle_fold_characterization (sha256 : List Nat → List Nat)
    (coinbase_hash : List Nat) (branches : List (List Char)) (bss : List (List Nat))
    (hdec : branches.map hexDecodeList = bss.map some) :
    merkleFold sha256 coinbase_hash branches =
      .ok (bss.foldl (fun acc entry => double_sha256 sha256 (acc ++ entry)) coinbase_hash) ∧
    merkleFold sha256 coinbase_hash [] = .ok coinbase_hash ∧
    ∀ bs : List Nat, reverse_hex_bytes (hexEncodeList bs) = hexEncodeList bs.reverse := by
  refine ⟨?_, rfl, reverse_hex_bytes_encode⟩
  induction branches generalizing coinbase_hash bss with
  | nil =>
    cases bss with
    | nil => rfl
    | cons x xs => simp at hdec
  | cons br rest ih =>
    cases bss with
    | nil => simp at hdec
    | cons bb bs' =>
      simp only [List.map_cons, List.cons.injEq] at hdec
      rw [merkleFold, hdec.1, List.foldl_cons]
      exact ih (double_sha256 sha256 (coinbase_hash ++ bb)) bs' hdec.2

/-- Witness for C4: the theorem applied to a constant hash function, a
one-byte coinbase hash and the single branch entry `"00"`. -/
theorem merkle_fold_characterization_witness :
    merkleFold (fun _ => [7]) [1] [['0', '0']] =
      .ok ([[0]].foldl (fun acc entry => double_sha256 (fun _ => [7]) (acc ++ entry)) [1]) ∧
    merkleFold (fun _ => [7]) [1] [] = .ok [1] ∧
    ∀ bs : List Nat, reverse_hex_bytes (hexEncodeList bs) = hexEncodeList bs.reverse :=
  merkle_fold_characterization (fun _ => [7]) [1] [['0', '0']] [[0]] (by decide)


/- ------------------------------------------------------------------ -/
/- Claim C3                                                            -/
/- ------------------------------------------------------------------ -/

theorem hexDecodeList_length : ∀ (s : List Char) (bs : List Nat),
    hexDecodeList s = some bs → s.length = 2 * bs.length
  | [], bs, h => by
    simp only [hexDecodeList, Option.some.injEq] at h
    subst h
    rfl
  | [c], bs, h => by simp [hexDecodeList] at h
  | c1 :: c2 :: rest, bs, h => by
    rw [hexDecodeList] at h
    split at h
    next d1 d2 ds hd1 hd2 hdr =>
      simp only [Option.some.injEq] at h
      subst h
      have hr := hexDecodeList_length rest ds hdr
      simp only [List.length_cons, hr]
      omega
    next => exact absurd h (by simp)

theorem hexDecodeList_append : ∀ (s1 : List Char) (b1 : List Nat) (s2 : List Char)
    (b2 : List Nat), hexDecodeList s1 = some b1 → hexDecodeList s2 = some b2 →
    hexDecodeList (s1 ++ s2) = some (b1 ++ b2)
  | [], b1, s2, b2, h1, h2 => by
    simp only [hexDecodeList, Option.some.injEq] at h1
    subst h1
    simpa using h2
  | [c], b1, s2, b2, h1, h2 => by simp [hexDecodeList] at h1
  | c1 :: c2 :: rest, b1, s2, b2, h1, h2 => by
    rw [hexDecodeList] at h1
    split at h1
    next d1 d2 ds hd1 hd2 hdr =>
      simp only [Option.some.injEq] at h1
      subst h1
      show hexDecodeList (c1 :: c2 :: (rest ++ s2)) = _
      rw [hexDecodeList, hd1, hd2, hexDecodeList_append rest ds s2 b2 hdr h2]
      rfl
    next => exact absurd h1 (by simp)

theorem hexDecodeList_replicate_zero (k : Nat) :
    hexDecodeList (List.replicate (2 * k) '0') = some (List.replicate k 0) := by
  induction k with
  | zero => rfl
  | succ k ih =>
    have h2 : 2 * (k + 1) = (2 * k) + 1 + 1 := by omega
    rw [h2, List.replicate_succ, List.replicate_succ, hexDecodeList, ih]
    rfl

theorem hexDecode_padLeft8 (s : List Char) (bs : List Nat)
    (h : hexDecodeList s = some bs) (hw : s.length ≤ 8) :
    hexDecodeList (padLeftZeros 8 s) = some (List.replicate (4 - bs.length) 0 ++ bs) := by
  have hlen := hexDecodeList_length s bs h
  have he : 8 - s.length = 2 * (4 - bs.length) := by omega
  rw [padLeftZeros, he]
  exact hexDecodeList_append _ _ _ _ (hexDecodeList_replicate_zero _) h

theorem hexDecode_padRight64 (s : List Char) (bs : List Nat)
    (h : hexDecodeList s = some bs) (hw : s.length ≤ 64) :
    hexDecodeList (padRightZeros 64 s) = some (bs ++ List.replicate (32 - bs.length) 0) := by
  have hlen := hexDecodeList_length s bs h
  have he : 64 - s.length = 2 * (32 - bs.length) := by omega
  rw [padRightZeros, he]
  exact hexDecodeList_append _ _ _ _ h (hexDecodeList_replicate_zero _)

/-- Claim C3 (amended): when each hex field additionally fits its
canonical width (at most 8 hex characters for `version`/`nbits`/`ntime`/
`nonce` and at most 64 for `prevhash`/`merkle_root`), the header encoder
returns exactly 80 bytes, the concatenation in the fixed order of the
zero-padded fields; and any six inputs whose padded concatenation does
not decode cleanly as hex fail with the encode error.  The original
claim's 80-byte guarantee fails for over-long inputs because the padding
never truncates (see the counterexample). -/
theorem create_block_header_80 (version prevhash merkle_root nbits ntime nonce : List Char)
    (bv bp bm bb bt bn : List Nat)
    (hv : hexDecodeList version = some bv) (hvl : version.length ≤ 8)
    (hp : hexDecodeList prevhash = some bp) (hpl : prevhash.length ≤ 64)
    (hm : hexDecodeList merkle_root = some bm) (hml : merkle_root.length ≤ 64)
    (hb : hexDecodeList nbits = some bb) (hbl : nbits.length ≤ 8)
    (ht : hexDecodeList ntime = some bt) (htl : ntime.length ≤ 8)
    (hn : hexDecodeList nonce = some bn) (hnl : nonce.length ≤ 8) :
    (∃ bytes, create_block_header version prevhash merkle_root nbits ntime nonce =
        .ok bytes ∧ bytes.length = 80 ∧
      bytes = (List.replicate (4 - bv.length) 0 ++ bv) ++
              (bp ++ List.replicate (32 - bp.length) 0) ++
              (bm ++ List.replicate (32 - bm.length) 0) ++
              (List.replicate (4 - bb.length) 0 ++ bb) ++
              (List.replicate (4 - bt.length) 0 ++ bt) ++
              (List.replicate (4 - bn.length) 0 ++ bn)) ∧
    (∀ v p m b t n : List Char,
      hexDecodeList (padLeftZeros 8 v ++ padRightZeros 64 p ++ padRightZeros 64 m ++
        padLeftZeros 8 b ++ padLeftZeros 8 t ++ padLeftZeros 8 n) = none →
      create_block_header v p m b t n = .error "Failed to decode block header hex") := by
  constructor
  · have hfull :
        hexDecodeList (padLeftZeros 8 version ++ padRightZeros 64 prevhash ++
          padRightZeros 64 merkle_root ++ padLeftZeros 8 nbits ++ padLeftZeros 8 ntime ++
          padLeftZeros 8 nonce) =
        some ((List.replicate (4 - bv.length) 0 ++ bv) ++
              (bp ++ List.replicate (32 - bp.length) 0) ++
              (bm ++ List.replicate (32 - bm.length) 0) ++
              (List.replicate (4 - bb.length) 0 ++ bb) ++
              (List.replicate (4 - bt.length) 0 ++ bt) ++
              (List.replicate (4 - bn.length) 0 ++ bn)) := by
      exact hexDecodeList_append _ _ _ _
        (hexDecodeList_append _ _ _ _
          (hexDecodeList_append _ _ _ _
            (hexDecodeList_append _ _ _ _
              (hexDecodeList_append _ _ _ _ (hexDecode_padLeft8 _ _ hv hvl)
                (hexDecode_padRight64 _ _ hp hpl))
              (hexDecode_padRight64 _ _ hm hml))
            (hexDecode_padLeft8 _ _ hb hbl))
          (hexDecode_padLeft8 _ _ ht htl))
        (hexDecode_padLeft8 _ _ hn hnl)
    refine ⟨_, ?_, ?_, rfl⟩
    · simp only [create_block_header]
      rw [hfull]
    · have l1 := hexDecodeList_length _ _ hv
      have l2 := hexDecodeList_length _ _ hp
      have l3 := hexDecodeList_length _ _ hm
      have l4 := hexDecodeList_length _ _ hb
      have l5 := hexDecodeList_length _ _ ht
      have l6 := hexDecodeList_length _ _ hn
      simp only [List.length_append, List.length_replicate]
      omega
  · intro v p m b t n hnone
    simp only [create_block_header]
    rw [hnone]

/-- Counterexample for C3: `version` given as ten `'0'` characters
decodes cleanly (five zero bytes), yet the header encoder returns an
81-byte buffer, because left-padding "to 8 hex characters" never
truncates an over-long field. -/
theorem create_block_header_81_counterexample :
    hexDecodeList (List.replicate 10 '0') = some (List.replicate 5 0) ∧
    create_block_header (List.replicate 10 '0') [] [] [] [] [] =
      .ok (List.replicate 81 0) ∧
    (List.replicate 81 (0 : Nat)).length ≠ 80 :=
  ⟨rfl, rfl, by decide⟩

/-- Witness for C3: the amended theorem applied to `version = "00"` and
the five other fields empty. -/
theorem create_block_header_80_witness :
    ∃ bytes, create_block_header ['0', '0'] [] [] [] [] [] = .ok bytes ∧
      bytes.length = 80 ∧
      bytes = (List.replicate (4 - [(0 : Nat)].length) 0 ++ [0]) ++
              ([] ++ List.replicate (32 - List.length ([] : List Nat)) 0) ++
              ([] ++ List.replicate (32 - List.length ([] : List Nat)) 0) ++
              (List.replicate (4 - List.length ([] : List Nat)) 0 ++ []) ++
              (List.replicate (4 - List.length ([] : List Nat)) 0 ++ []) ++
              (List.replicate (4 - List.length ([] : List Nat)) 0 ++ []) :=
  (create_block_header_80 ['0', '0'] [] [] [] [] [] [0] [] [] [] [] []
    rfl (by decide) rfl (by decide) rfl (by decide) rfl (by decide)
    rfl (by decide) rfl (by decide)).1


/- ------------------------------------------------------------------ -/
/- Claim C9                                                            -/
/- ------------------------------------------------------------------ -/

theorem hexEncodeList_length (bs : List Nat) :
    (hexEncodeList bs).length = 2 * bs.length := by
  induction bs with
  | nil => rfl
  | cons b bs ih =>
    rw [hexEncodeList_cons, List.length_append, ih]
    simp [hexEncodeByte]
    omega

/-- Counterexample for C9: a subscribe result declaring extranonce2 size
8 still yields an extranonce2 of 8 hex characters, i.e. 4 bytes — the
pool-declared size is read into `_extranonce2_size` and never used, so
the generated length does not equal the declared size. -/
theorem extranonce2_ignores_pool_size :
    subscribeExtranonce2Size (.arr [.null, .str [], .num 8]) = 8 ∧
    (mkExtranonce2 [0, 0, 0, 0]).length / 2 = 4 ∧
    (4 : Nat) ≠ 8 := ⟨rfl, rfl, by decide⟩

/-- Claim C9 (amended): the locally generated extranonce2 always has
exactly 8 hex characters (4 bytes, the constant `EXTRANONCE2_SIZE_BYTES`)
whatever extranonce2 size the pool declared in the subscribe result. -/
theorem mkExtranonce2_length (bs : List Nat) (hlen : bs.length = extranonce2SizeBytes) :
    (mkExtranonce2 bs).length = 2 * extranonce2SizeBytes := by
  have he : (hexEncodeList bs).length = 8 := by
    rw [hexEncodeList_length, hlen]
    rfl
  rw [mkExtranonce2, padLeftZeros, List.length_append, List.length_replicate, he]
  rfl

/-- Witness for C9: the amended theorem applied to the 4 bytes
`[1, 2, 3, 4]`. -/
theorem mkExtranonce2_length_witness :
    (mkExtranonce2 [1, 2, 3, 4]).length = 2 * extranonce2SizeBytes :=
  mkExtranonce2_length [1, 2, 3, 4] (by decide)


/- ------------------------------------------------------------------ -/
/- Claim C8                                                            -/
/- ------------------------------------------------------------------ -/

@[simp] theorem JVal.as_array_arr (xs : List JVal) : (JVal.arr xs).as_array = some xs := rfl

theorem JVal.as_str_eq_some (v : JVal) (s : List Char) :
    v.as_str = some s ↔ v = .str s := by
  cases v <;> simp [JVal.as_str]

/-- Claim C8: decoding the notify params fails on fewer than 9
elements; with at least 9 elements it succeeds exactly when the seven
required positions (job_id, prevhash, coinb1, coinb2, version, nbits,
ntime) hold strings, any failure is a missing-field error, a 5th
element that is not a list yields an empty merkle branch, and a 9th
element that is not a boolean yields clean_jobs = false instead of
failing. -/
theorem decodeMiningJob_spec (ps : List JVal) :
    (ps.length < 9 →
      decodeMiningJob (.arr ps) =
        .error "Invalid mining.notify message: insufficient parameters") ∧
    (9 ≤ ps.length →
      (((∃ job, decodeMiningJob (.arr ps) = .ok job) ↔
        ((∃ s, ps.getD 0 .null = .str s) ∧ (∃ s, ps.getD 1 .null = .str s) ∧
         (∃ s, ps.getD 2 .null = .str s) ∧ (∃ s, ps.getD 3 .null = .str s) ∧
         (∃ s, ps.getD 5 .null = .str s) ∧ (∃ s, ps.getD 6 .null = .str s) ∧
         (∃ s, ps.getD 7 .null = .str s))) ∧
       (∀ e, decodeMiningJob (.arr ps) = .error e →
         e ∈ ["Missing job_id", "Missing prevhash", "Missing coinb1",
              "Missing coinb2", "Missing version", "Missing nbits",
              "Missing ntime"]) ∧
       (∀ job, decodeMiningJob (.arr ps) = .ok job →
         ((ps.getD 4 .null).as_array = none → job.merkle_branch = []) ∧
         ((ps.getD 8 .null).as_bool = none → job.clean_jobs = false)))) := by
  constructor
  · intro hlt
    simp only [decodeMiningJob, JVal.as_array_arr, Option.map_some', Option.getD_some]
    rw [if_pos hlt]
  · intro h9
    have hnlt : ¬ (ps.length < 9) := by omega
    cases h0 : (ps.getD 0 .null).as_str with
    | none =>
      have hd : decodeMiningJob (.arr ps) = .error "Missing job_id" := by
        simp only [decodeMiningJob, JVal.as_array_arr, Option.map_some', Option.getD_some,
          JVal.get_arr]
        rw [if_neg hnlt, h0]
      refine ⟨?_, ?_, ?_⟩
      · constructor
        · rintro ⟨job, hjob⟩
          rw [hd] at hjob
          exact absurd hjob (by simp)
        · rintro ⟨⟨s, hs⟩, -, -, -, -, -, -⟩
          rw [hs] at h0
          simp [JVal.as_str] at h0
      · intro e he
        rw [hd] at he
        simp only [Except.error.injEq] at he
        subst he
        simp
      · intro job hjob
        rw [hd] at hjob
        exact absurd hjob (by simp)
    | some s0 =>
      cases h1 : (ps.getD 1 .null).as_str with
      | none =>
        have hd : decodeMiningJob (.arr ps) = .error "Missing prevhash" := by
          simp only [decodeMiningJob, JVal.as_array_arr, Option.map_some', Option.getD_some,
          JVal.get_arr]
          rw [if_neg hnlt, h0, h1]
        refine ⟨?_, ?_, ?_⟩
        · constructor
          · rintro ⟨job, hjob⟩
            rw [hd] at hjob
            exact absurd hjob (by simp)
          · rintro ⟨-, ⟨s, hs⟩, -, -, -, -, -⟩
            rw [hs] at h1
            simp [JVal.as_str] at h1
        · intro e he
          rw [hd] at he
          simp only [Except.error.injEq] at he
          subst he
          simp
        · intro job hjob
          rw [hd] at hjob
          exact absurd hjob (by simp)
      | some s1 =>
        cases h2 : (ps.getD 2 .null).as_str with
        | none =>
          have hd : decodeMiningJob (.arr ps) = .error "Missing coinb1" := by
            simp only [decodeMiningJob, JVal.as_array_arr, Option.map_some', Option.getD_some,
          JVal.get_arr]
            rw [if_neg hnlt, h0, h1, h2]
          refine ⟨?_, ?_, ?_⟩
          · constructor
            · rintro ⟨job, hjob⟩
              rw [hd] at hjob
              exact absurd hjob (by simp)
            · rintro ⟨-, -, ⟨s, hs⟩, -, -, -, -⟩
              rw [hs] at h2
              simp [JVal.as_str] at h2
          · intro e he
            rw [hd] at he
            simp only [Except.error.injEq] at he
            subst he
            simp
          · intro job hjob
            rw [hd] at hjob
            exact absurd hjob (by simp)
        | some s2 =>
          cases h3 : (ps.getD 3 .null).as_str with
          | none =>
            have hd : decodeMiningJob (.arr ps) = .error "Missing coinb2" := by
              simp only [decodeMiningJob, JVal.as_array_arr, Option.map_some', Option.getD_some,
          JVal.get_arr]
              rw [if_neg hnlt, h0, h1, h2, h3]
            refine ⟨?_, ?_, ?_⟩
            · constructor
              · rintro ⟨job, hjob⟩
                rw [hd] at hjob
                exact absurd hjob (by simp)
              · rintro ⟨-, -, -, ⟨s, hs⟩, -, -, -⟩
                rw [hs] at h3
                simp [JVal.as_str] at h3
            · intro e he
              rw [hd] at he
              simp only [Except.error.injEq] at he
              subst he
              simp
            · intro job hjob
              rw [hd] at hjob
              exact absurd hjob (by simp)
          | some s3 =>
            cases h5 : (ps.getD 5 .null).as_str with
            | none =>
              have hd : decodeMiningJob (.arr ps) = .error "Missing version" := by
                simp only [decodeMiningJob, JVal.as_array_arr, Option.map_some', Option.getD_some,
          JVal.get_arr]
                rw [if_neg hnlt, h0, h1, h2, h3, h5]
              refine ⟨?_, ?_, ?_⟩
              · constructor
                · rintro ⟨job, hjob⟩
                  rw [hd] at hjob
                  exact absurd hjob (by simp)
                · rintro ⟨-, -, -, -, ⟨s, hs⟩, -, -⟩
                  rw [hs] at h5
                  simp [JVal.as_str] at h5
              · intro e he
                rw [hd] at he
                simp only [Except.error.injEq] at he
                subst he
                simp
              · intro job hjob
                rw [hd] at hjob
                exact absurd hjob (by simp)
            | some s5 =>
              cases h6 : (ps.getD 6 .null).as_str with
              | none =>
                have hd : decodeMiningJob (.arr ps) = .error "Missing nbits" := by
                  simp only [decodeMiningJob, JVal.as_array_arr, Option.map_some', Option.getD_some,
          JVal.get_arr]
                  rw [if_neg hnlt, h0, h1, h2, h3, h5, h6]
                refine ⟨?_, ?_, ?_⟩
                · constructor
                  · rintro ⟨job, hjob⟩
                    rw [hd] at hjob
                    exact absurd hjob (by simp)
                  · rintro ⟨-, -, -, -, -, ⟨s, hs⟩, -⟩
                    rw [hs] at h6
                    simp [JVal.as_str] at h6
                · intro e he
                  rw [hd] at he
                  simp only [Except.error.injEq] at he
                  subst he
                  simp
                · intro job hjob
                  rw [hd] at hjob
                  exact absurd hjob (by simp)
              | some s6 =>
                cases h7 : (ps.getD 7 .null).as_str with
                | none =>
                  have hd : decodeMiningJob (.arr ps) = .error "Missing ntime" := by
                    simp only [decodeMiningJob, JVal.as_array_arr, Option.map_some', Option.getD_some,
          JVal.get_arr]
                    rw [if_neg hnlt, h0, h1, h2, h3, h5, h6, h7]
                  refine ⟨?_, ?_, ?_⟩
                  · constructor
                    · rintro ⟨job, hjob⟩
                      rw [hd] at hjob
                      exact absurd hjob (by simp)
                    · rintro ⟨-, -, -, -, -, -, ⟨s, hs⟩⟩
                      rw [hs] at h7
                      simp [JVal.as_str] at h7
                  · intro e he
                    rw [hd] at he
                    simp only [Except.error.injEq] at he
                    subst he
                    simp
                  · intro job hjob
                    rw [hd] at hjob
                    exact absurd hjob (by simp)
                | some s7 =>
                  have hd : decodeMiningJob (.arr ps) = .ok ⟨s0, s1, s2, s3,
                      ((ps.getD 4 .null).as_array.getD []).map (fun v => v.as_str.getD []),
                      s5, s6, s7, (ps.getD 8 .null).as_bool.getD false⟩ := by
                    simp only [decodeMiningJob, JVal.as_array_arr, Option.map_some', Option.getD_some,
          JVal.get_arr]
                    rw [if_neg hnlt, h0, h1, h2, h3, h5, h6, h7]
                  refine ⟨?_, ?_, ?_⟩
                  · constructor
                    · intro _
                      exact ⟨⟨s0, (JVal.as_str_eq_some _ _).mp h0⟩, ⟨s1, (JVal.as_str_eq_some _ _).mp h1⟩, ⟨s2, (JVal.as_str_eq_some _ _).mp h2⟩, ⟨s3, (JVal.as_str_eq_some _ _).mp h3⟩, ⟨s5, (JVal.as_str_eq_some _ _).mp h5⟩, ⟨s6, (JVal.as_str_eq_some _ _).mp h6⟩, ⟨s7, (JVal.as_str_eq_some _ _).mp h7⟩⟩
                    · intro _
                      exact ⟨_, hd⟩
                  · intro e he
                    rw [hd] at he
                    exact absurd he (by simp)
                  · intro job hjob
                    rw [hd] at hjob
                    simp only [Except.ok.injEq] at hjob
                    subst hjob
                    constructor
                    · intro h4
                      simp only [h4, Option.getD_none, List.map_nil]
                    · intro h8
                      simp only [h8, Option.getD_none]

/-- Witness for C8: the theorem applied to a 9-element params array
whose 5th element is a number (not a list) and whose 9th element is a
number (not a boolean); decoding succeeds. -/
theorem decodeMiningJob_spec_witness :
    ∃ job, decodeMiningJob (.arr [.str ['a'], .str ['b'], .str ['c'], .str ['d'],
      .num 0, .str ['e'], .str ['f'], .str ['g'], .num 1]) = .ok job :=
  (((decodeMiningJob_spec [.str ['a'], .str ['b'], .str ['c'], .str ['d'], .num 0,
      .str ['e'], .str ['f'], .str ['g'], .num 1]).2 (by decide)).1).mpr
    ⟨⟨['a'], rfl⟩, ⟨['b'], rfl⟩, ⟨['c'], rfl⟩, ⟨['d'], rfl⟩, ⟨['e'], rfl⟩,
     ⟨['f'], rfl⟩, ⟨['g'], rfl⟩⟩


/- ------------------------------------------------------------------ -/
/- Claims C5 and C7                                                    -/
/- ------------------------------------------------------------------ -/

theorem stepNonce_lt (n : Nat) : stepNonce n < 2 ^ 32 :=
  Nat.mod_lt _ (by norm_num)

theorem mineBatch_ok_some (jp : JobParams) (fuel : Nat) :
    ∀ (start : Nat) (sol : Solution) (n' : Nat),
    mineBatch jp fuel start = .ok (some sol, n') →
    ∃ k, 1 ≤ k ∧ k ≤ fuel ∧ n' = (start + k) % 2 ^ 32 ∧
      sol.nonce = format08x n' ∧
      sol.job_id = jp.job_id ∧ sol.extranonce2 = jp.extranonce2 ∧ sol.ntime = jp.ntime ∧
      tryHeader jp sol.nonce = .ok sol.hash ∧
      hash_meets_target sol.hash jp.target = true ∧
      (∀ j, 1 ≤ j → j < k → ∃ hj,
        tryHeader jp (format08x ((start + j) % 2 ^ 32)) = .ok hj ∧
        hash_meets_target hj jp.target = false) := by
  induction fuel with
  | zero =>
    intro start sol n' h
    exact absurd h (by simp [mineBatch])
  | succ fuel ih =>
    intro start sol n' h
    simp only [mineBatch] at h
    cases hth : tryHeader jp (format08x (stepNonce start)) with
    | error e =>
      rw [hth] at h
      exact absurd h (by simp)
    | ok hashb =>
      simp only [hth] at h
      by_cases hmt : hash_meets_target hashb jp.target = true
      · rw [if_pos hmt] at h
        simp only [Except.ok.injEq, Prod.mk.injEq, Option.some.injEq] at h
        obtain ⟨hsol, hn⟩ := h
        subst hsol
        subst hn
        refine ⟨1, le_refl 1, by omega, rfl, rfl, rfl, rfl, rfl, hth, hmt, ?_⟩
        intro j hj1 hjk
        omega
      · rw [if_neg hmt] at h
        have hmf : hash_meets_target hashb jp.target = false := by
          revert hmt
          cases hash_meets_target hashb jp.target <;> simp
        obtain ⟨k', hk1, hkf, hn, hnonce, hjid, hex, hnt, hth', hmt', hfail⟩ :=
          ih (stepNonce start) sol n' h
        refine ⟨k' + 1, by omega, by omega, ?_, hnonce, hjid, hex, hnt, hth', hmt', ?_⟩
        · rw [hn, stepNonce, Nat.mod_add_mod]
          have harg : start + 1 + k' = start + (k' + 1) := by omega
          rw [harg]
        · intro j hj1 hjk
          by_cases hj : j = 1
          · subst hj
            refine ⟨hashb, ?_, hmf⟩
            have hone : (start + 1) % 2 ^ 32 = stepNonce start := rfl
            rw [hone]
            exact hth
          · obtain ⟨hjv, hje, hjf⟩ := hfail (j - 1) (by omega) (by omega)
            have heq : (stepNonce start + (j - 1)) % 2 ^ 32 = (start + j) % 2 ^ 32 := by
              rw [stepNonce, Nat.mod_add_mod]
              have harg : start + 1 + (j - 1) = start + j := by omega
              rw [harg]
            rw [heq] at hje
            exact ⟨hjv, hje, hjf⟩

theorem mineBatch_ok_none (jp : JobParams) (fuel : Nat) :
    ∀ (start n' : Nat), start < 2 ^ 32 →
    mineBatch jp fuel start = .ok (none, n') →
    n' = (start + fuel) % 2 ^ 32 ∧ n' < 2 ^ 32 ∧
    ∀ j, 1 ≤ j → j ≤ fuel → ∃ hj,
      tryHeader jp (format08x ((start + j) % 2 ^ 32)) = .ok hj ∧
      hash_meets_target hj jp.target = false := by
  induction fuel with
  | zero =>
    intro start n' hs h
    simp only [mineBatch, Except.ok.injEq, Prod.mk.injEq] at h
    refine ⟨?_, ?_, ?_⟩
    · rw [← h.2, Nat.add_zero, Nat.mod_eq_of_lt hs]
    · rw [← h.2]
      exact hs
    · intro j hj1 hjk
      omega
  | succ fuel ih =>
    intro start n' hs h
    simp only [mineBatch] at h
    cases hth : tryHeader jp (format08x (stepNonce start)) with
    | error e =>
      rw [hth] at h
      exact absurd h (by simp)
    | ok hashb =>
      simp only [hth] at h
      by_cases hmt : hash_meets_target hashb jp.target = true
      · rw [if_pos hmt] at h
        exact absurd h (by simp)
      · rw [if_neg hmt] at h
        have hmf : hash_meets_target hashb jp.target = false := by
          revert hmt
          cases hash_meets_target hashb jp.target <;> simp
        obtain ⟨hn, hlt, hfail⟩ := ih (stepNonce start) n' (stepNonce_lt start) h
        refine ⟨?_, hlt, ?_⟩
        · rw [hn, stepNonce, Nat.mod_add_mod]
          have harg : start + 1 + fuel = start + (fuel + 1) := by omega
          rw [harg]
        · intro j hj1 hjk
          by_cases hj : j = 1
          · subst hj
            refine ⟨hashb, ?_, hmf⟩
            have hone : (start + 1) % 2 ^ 32 = stepNonce start := rfl
            rw [hone]
            exact hth
          · obtain ⟨hjv, hje, hjf⟩ := hfail (j - 1) (by omega) (by omega)
            have heq : (stepNonce start + (j - 1)) % 2 ^ 32 = (start + j) % 2 ^ 32 := by
              rw [stepNonce, Nat.mod_add_mod]
              have harg : start + 1 + (j - 1) = start + j := by omega
              rw [harg]
            rw [heq] at hje
            exact ⟨hjv, hje, hjf⟩

/-- Claim C5: the nonce search produces at most one solution per job (the
loop returns an `Option Solution` and stops at the first hit): whenever
it returns a solution, that solution carries the job's submit fields,
its hash comes from its own header and meets the target, and every nonce
attempted before it (across batches, in iteration order) failed the
target check — first match wins and no nonce after the match is tried. -/
theorem mineJob_first_match (jp : JobParams) (work_on : Nat) (heights : List Nat) :
    ∀ (start : Nat) (sol : Solution), start < 2 ^ 32 →
    mineJob jp work_on heights start = .ok (some sol) →
    ∃ k, 1 ≤ k ∧ sol.nonce = format08x ((start + k) % 2 ^ 32) ∧
      sol.job_id = jp.job_id ∧ sol.extranonce2 = jp.extranonce2 ∧ sol.ntime = jp.ntime ∧
      tryHeader jp sol.nonce = .ok sol.hash ∧
      hash_meets_target sol.hash jp.target = true ∧
      ∀ j, 1 ≤ j → j < k → ∃ hj,
        tryHeader jp (format08x ((start + j) % 2 ^ 32)) = .ok hj ∧
        hash_meets_target hj jp.target = false := by
  induction heights with
  | nil =>
    intro start sol hs h
    exact absurd h (by simp [mineJob])
  | cons hgt hgts ih =>
    intro start sol hs h
    rw [mineJob] at h
    by_cases hcmp : hgt > work_on
    · rw [if_pos hcmp] at h
      exact absurd h (by simp)
    · rw [if_neg hcmp] at h
      cases hb : mineBatch jp hashesPerBatch start with
      | error e =>
        rw [hb] at h
        exact absurd h (by simp)
      | ok pr =>
        obtain ⟨osol, n2⟩ := pr
        cases osol with
        | some s =>
          rw [hb] at h
          simp only [Except.ok.injEq, Option.some.injEq] at h
          obtain ⟨k, hk1, _, hn, hnonce, hjid, hex, hnt, hth, hmt, hfail⟩ :=
            mineBatch_ok_some jp hashesPerBatch start s n2 hb
          subst h
          exact ⟨k, hk1, by rw [hnonce, hn], hjid, hex, hnt, hth, hmt, hfail⟩
        | none =>
          rw [hb] at h
          obtain ⟨hn2, hlt2, hfailb⟩ := mineBatch_ok_none jp hashesPerBatch start n2 hs hb
          obtain ⟨k', hk1, hnonce, hjid, hex, hnt, hth, hmt, hfail⟩ := ih n2 sol hlt2 h
          have hhpb : hashesPerBatch = 1000 := rfl
          refine ⟨hashesPerBatch + k', by omega, ?_, hjid, hex, hnt, hth, hmt, ?_⟩
          · rw [hnonce, hn2, Nat.mod_add_mod, Nat.add_assoc]
          · intro j hj1 hjk
            by_cases hjb : j ≤ hashesPerBatch
            · exact hfailb j hj1 hjb
            · obtain ⟨hjv, hje, hjf⟩ := hfail (j - hashesPerBatch) (by omega) (by omega)
              have heq : (n2 + (j - hashesPerBatch)) % 2 ^ 32 = (start + j) % 2 ^ 32 := by
                rw [hn2, Nat.mod_add_mod]
                have harg : start + hashesPerBatch + (j - hashesPerBatch) = start + j := by
                  omega
                rw [harg]
              rw [heq] at hje
              exact ⟨hjv, hje, hjf⟩

/-- Witness for C5: the theorem applied to the concrete job `jpExample`
(whose every hash meets the all-zero target) with one height observation;
the search returns `solExample`, found at the first attempted nonce. -/
theorem mineJob_first_match_witness :
    ∃ k, 1 ≤ k ∧ solExample.nonce = format08x ((0 + k) % 2 ^ 32) ∧
      solExample.job_id = jpExample.job_id ∧
      solExample.extranonce2 = jpExample.extranonce2 ∧
      solExample.ntime = jpExample.ntime ∧
      tryHeader jpExample solExample.nonce = .ok solExample.hash ∧
      hash_meets_target solExample.hash jpExample.target = true ∧
      ∀ j, 1 ≤ j → j < k → ∃ hj,
        tryHeader jpExample (format08x ((0 + j) % 2 ^ 32)) = .ok hj ∧
        hash_meets_target hj jpExample.target = false :=
  mineJob_first_match jpExample 0 [0] 0 solExample (by norm_num) rfl

/-- Counterexample for C7: on the concrete job `jpExample`, where every
nonce satisfies the target, the first header hashed uses nonce 1, not
nonce 0 — `nonce_counter` starts at 0 but is incremented before the
header is built, so nonce 0 is not the first nonce tried. -/
theorem first_hashed_nonce_is_one :
    mineJob jpExample 0 [0] 0 = .ok (some solExample) ∧
    solExample.nonce = format08x 1 ∧
    format08x 1 ≠ format08x 0 :=
  ⟨rfl, rfl, by decide⟩

/-- Claim C7 (amended): the nonce counter starts at 0 and is incremented
with wraparound before each header is built, so the first nonce hashed
for a fresh job is `stepNonce 0 = 1` (not 0), and immediately after
counter value `0xffffffff = 2^32 - 1` the next nonce tried is 0: whenever
the first attempted header of a batch hashes to a target-meeting value,
the batch returns the solution for nonce `stepNonce start`. -/
theorem nonce_counter_increments_first (jp : JobParams) (fuel start : Nat)
    (hashb : List Nat)
    (hth : tryHeader jp (format08x (stepNonce start)) = .ok hashb)
    (hmt : hash_meets_target hashb jp.target = true) :
    mineBatch jp (fuel + 1) start =
      .ok (some ⟨hashb, format08x (stepNonce start), jp.job_id, jp.extranonce2,
        jp.ntime⟩, stepNonce start) ∧
    (∀ n, stepNonce n = (n + 1) % 2 ^ 32) ∧
    stepNonce 0 = 1 ∧
    stepNonce (2 ^ 32 - 1) = 0 := by
  refine ⟨?_, fun n => rfl, by decide, by decide⟩
  simp only [mineBatch, hth]
  rw [if_pos hmt]

/-- Witness for C7: the amended theorem applied to `jpExample` at counter
value 0: the first nonce hashed is `stepNonce 0 = 1`. -/
theorem nonce_counter_increments_first_witness :
    mineBatch jpExample (0 + 1) 0 =
      .ok (some ⟨List.replicate 32 0, format08x (stepNonce 0), jpExample.job_id,
        jpExample.extranonce2, jpExample.ntime⟩, stepNonce 0) ∧
    (∀ n, stepNonce n = (n + 1) % 2 ^ 32) ∧
    stepNonce 0 = 1 ∧
    stepNonce (2 ^ 32 - 1) = 0 :=
  nonce_counter_increments_first jpExample 0 0 (List.replicate 32 0) rfl rfl

end SoloMiner
